import Mathlib

/-!
Verification of the HAR-to-PDF download utility (`main.py`).

The development shallowly embeds the program: pure string manipulation is
translated to Lean functions over `String` / `List Char`; filesystem and
network effects become explicit state passing over a file-system value and a
network oracle.  Standard-library routines used by the program
(`str.strip`, `str.lower`, `str.splitlines`, `re.findall`,
`urllib.parse.urlparse`, `urllib.parse.unquote`, `os.path.basename`,
`os.path.join`) are modelled from CPython 3.11 semantics.

Modelling notes on the Python standard library:
* character classes (`str.isspace`, `\s`, `str.isupper`, `str.lower`) are
  modelled on their exact ASCII behaviour plus the concrete non-ASCII
  whitespace code points; the full Unicode case-mapping tables are not
  reproduced (no claim here depends on non-ASCII letters);
* `unquote` is modelled as byte-level percent-decoding; CPython's final
  UTF-8 re-decode of the decoded byte run is the identity on the ASCII
  inputs all claims range over;
* `urlsplit`'s `ValueError` for a netloc with unbalanced `[`/`]` brackets
  and the NFKC netloc check are not modelled (no claim mentions them);
* `list(set(...))` iterates in an unspecified order; the model fixes one
  concrete order (`List.dedup`).  No claim below depends on which
  duplicate of an element survives.
-/

/-- Python `str.isspace` / regex `\s` character class (CPython, `str` mode). -/
def pyIsSpace (c : Char) : Bool :=
  let n := c.toNat
  (9 ≤ n && n ≤ 13) || n = 32 || (28 ≤ n && n ≤ 31) || n = 0x85 || n = 0xa0 ||
    n = 0x1680 || (0x2000 ≤ n && n ≤ 0x200a) || n = 0x2028 || n = 0x2029 ||
    n = 0x202f || n = 0x205f || n = 0x3000

/-- Line-boundary characters recognised by Python `str.splitlines`
(`\r\n` is additionally treated as a single boundary). -/
def isLineBreakChar (c : Char) : Bool :=
  let n := c.toNat
  n = 10 || n = 13 || n = 11 || n = 12 || (28 ≤ n && n ≤ 30) || n = 0x85 ||
    n = 0x2028 || n = 0x2029

/-- Python `str.strip()` with no argument: remove leading and trailing
whitespace. -/
def pyStrip (s : String) : String :=
  ⟨(((s.toList.dropWhile pyIsSpace).reverse.dropWhile pyIsSpace)).reverse⟩

/-- Python `str.lower` on a single character, ASCII case mapping. -/
def pyLowerChar (c : Char) : Char :=
  if 65 ≤ c.toNat && c.toNat ≤ 90 then Char.ofNat (c.toNat + 32) else c

/-- Python `str.lower` (ASCII fragment of the Unicode mapping). -/
def pyLower (s : String) : String := ⟨s.toList.map pyLowerChar⟩

/-- Python `str.isupper` on a single character (ASCII fragment). -/
def pyIsUpperChar (c : Char) : Bool := 65 ≤ c.toNat && c.toNat ≤ 90

/-- Python `str.splitlines`, auxiliary scanner.  `acc` holds the current
line, reversed. -/
def splitLinesAux : List Char → List Char → List String
  | acc, [] => if acc.isEmpty then [] else [⟨acc.reverse⟩]
  | acc, '\r' :: '\n' :: rest => ⟨acc.reverse⟩ :: splitLinesAux [] rest
  | acc, c :: rest =>
    if isLineBreakChar c then ⟨acc.reverse⟩ :: splitLinesAux [] rest
    else splitLinesAux (c :: acc) rest

/-- Python `str.splitlines()`. -/
def pySplitlines (s : String) : List String := splitLinesAux [] s.toList

/-- Python `sep.join(lines)`. -/
def pyJoin (sep : String) : List String → String
  | [] => ""
  | [x] => x
  | x :: xs => x ++ sep ++ pyJoin sep xs

/-- Occurrence scan behind the Python substring test. -/
def containsSubList (needle : List Char) : List Char → Bool
  | [] => needle.isEmpty
  | c :: rest => needle.isPrefixOf (c :: rest) || containsSubList needle rest

/-- Python substring test `needle in hay`. -/
def strContains (hay needle : String) : Bool :=
  containsSubList needle.toList hay.toList

/-- Python `str.removeprefix` (had to avoid ending the Lean name with the
word prefix). -/
def pyRemoveStart (s pre : String) : String :=
  if pre.toList.isPrefixOf s.toList then ⟨s.toList.drop pre.toList.length⟩ else s

/-- Python `str.removesuffix`. -/
def pyRemoveEnd (s suf : String) : String :=
  if suf.toList.isSuffixOf s.toList then
    ⟨s.toList.take (s.toList.length - suf.toList.length)⟩
  else s

example : pyStrip "  a b \t" = "a b" := by decide
example : pyLower "A%20Z.PDF" = "a%20z.pdf" := by decide
example : pySplitlines "a\r\nb\x0bc" = ["a", "b", "c"] := by decide
example : pySplitlines "" = [] := by decide
example : pySplitlines "a\n" = ["a"] := by decide
example : pySplitlines "\n" = [""] := by decide
example : pyRemoveStart "\"url\": \"x\"" "\"url\": \"" = "x\"" := by decide
example : pyRemoveEnd "a.thumb.319.319.png\"" ".thumb.319.319.png\"" = "a" := by decide
example : strContains "x.pdf.y" ".pdf" = true := by decide
example : strContains "x.png" ".pdf" = false := by decide

/-! ### URL parsing (`urllib.parse`, CPython 3.11) and filename derivation -/

/-- WHATWG C0-control-or-space class stripped from the front of a URL by
`urlsplit`. -/
def isC0OrSpace (c : Char) : Bool := c.toNat ≤ 0x20

/-- Bytes removed everywhere in the URL by `urlsplit`
(`_UNSAFE_URL_BYTES_TO_REMOVE = ["\t", "\r", "\n"]`). -/
def isUnsafeUrlByte (c : Char) : Bool :=
  c.toNat = 9 || c.toNat = 13 || c.toNat = 10

/-- ASCII letter test (`str.isascii() and str.isalpha()` on one char). -/
def isAsciiAlpha (c : Char) : Bool :=
  (65 ≤ c.toNat && c.toNat ≤ 90) || (97 ≤ c.toNat && c.toNat ≤ 122)

/-- Characters allowed in a URL scheme (`scheme_chars`). -/
def isSchemeChar (c : Char) : Bool :=
  isAsciiAlpha c || (48 ≤ c.toNat && c.toNat ≤ 57) ||
    c = '+' || c = '-' || c = '.'

/-- Scheme recognition step of `urlsplit`: if the text up to the first `:`
is a well-formed scheme, split it off (lower-cased). -/
def splitScheme (u : List Char) : Option (List Char × List Char) :=
  let pre := u.takeWhile (fun c => c ≠ ':')
  let headOk : Bool := match pre.head? with
    | some c => isAsciiAlpha c
    | none => false
  if pre.length.blt u.length && !pre.isEmpty && headOk && pre.all isSchemeChar then
    some (pre.map pyLowerChar, u.drop (pre.length + 1))
  else none

/-- Schemes for which `urlparse` splits `;parameters` off the path
(`uses_params`; `''` is the no-scheme case). -/
def usesParams : List String :=
  ["", "ftp", "hdl", "prospero", "http", "imap", "https", "shttp", "rtsp",
   "rtsps", "rtspu", "sip", "sips", "mms", "sftp", "tel"]

/-- `_splitparams`: cut the path at the first `;` at or after the last `/`
(or the first `;` overall when there is no `/`).  Only called when the path
contains a `;`. -/
def splitParamsPath (p : List Char) : List Char :=
  if p.contains '/' then
    let revSeg := p.reverse.takeWhile (fun c => c ≠ '/')
    let seg := revSeg.reverse
    if seg.contains ';' then
      (p.reverse.drop revSeg.length).reverse ++ seg.takeWhile (fun c => c ≠ ';')
    else p
  else p.takeWhile (fun c => c ≠ ';')

/-- Path component of `urllib.parse.urlparse(url)` (default arguments):
strip leading C0 controls and spaces, drop tab/CR/LF, split off the scheme,
the `//netloc`, the `#fragment` and the `?query`, then split `;params` for
the schemes in `usesParams`.  The `ValueError` for unbalanced `[`/`]` in the
netloc and the NFKC netloc check are not modelled. -/
def urlparse_path (url : String) : String :=
  let u0 := (url.toList.dropWhile isC0OrSpace).filter (fun c => !isUnsafeUrlByte c)
  let schemeAndRest := match splitScheme u0 with
    | some sr => sr
    | none => ([], u0)
  let scheme := schemeAndRest.1
  let u1 := schemeAndRest.2
  let u2 :=
    if u1.take 2 = ['/', '/'] then
      (u1.drop 2).dropWhile (fun c => c ≠ '/' && c ≠ '?' && c ≠ '#')
    else u1
  let u3 := (u2.takeWhile (fun c => c ≠ '#')).takeWhile (fun c => c ≠ '?')
  let p := if usesParams.contains (String.mk scheme) && u3.contains ';' then
      splitParamsPath u3
    else u3
  ⟨p⟩

/-- `os.path.basename` (POSIX): everything after the last `/`. -/
def os_path_basename (p : String) : String :=
  ⟨(p.toList.reverse.takeWhile (fun c => c ≠ '/')).reverse⟩

/-- Hex digit test used by `unquote`. -/
def isHexDigitChar (c : Char) : Bool :=
  (48 ≤ c.toNat && c.toNat ≤ 57) || (97 ≤ c.toNat && c.toNat ≤ 102) ||
    (65 ≤ c.toNat && c.toNat ≤ 70)

/-- Value of a hex digit. -/
def hexVal (c : Char) : Nat :=
  if 48 ≤ c.toNat && c.toNat ≤ 57 then c.toNat - 48
  else if 97 ≤ c.toNat && c.toNat ≤ 102 then c.toNat - 87
  else if 65 ≤ c.toNat && c.toNat ≤ 70 then c.toNat - 55
  else 0

/-- `urllib.parse.unquote`, byte level: each `%XY` with two hex digits
becomes the byte `0xXY`; any other character (including a `%` not followed
by two hex digits) passes through.  CPython additionally re-decodes decoded
byte runs as UTF-8; that step is the identity on ASCII data. -/
def unquoteList : List Char → List Char
  | [] => []
  | '%' :: a :: b :: rest =>
    if isHexDigitChar a && isHexDigitChar b then
      Char.ofNat (16 * hexVal a + hexVal b) :: unquoteList rest
    else '%' :: unquoteList (a :: b :: rest)
  | c :: rest => c :: unquoteList rest

/-- `urllib.parse.unquote` on strings. -/
def unquote (s : String) : String := ⟨unquoteList s.toList⟩

/-- `url_to_filename` from `main.py`:
`unquote(os.path.basename(urlparse(url).path))`. -/
def url_to_filename (url : String) : String :=
  unquote (os_path_basename (urlparse_path url))

example : urlparse_path "https://example.com/a%20b.pdf" = "/a%20b.pdf" := by decide
example : urlparse_path "https://example.com/a/" = "/a/" := by decide
example : urlparse_path "http://x/a;b" = "/a" := by decide
example : urlparse_path "x.pdf" = "x.pdf" := by decide
example : urlparse_path "mailto:joe" = "joe" := by decide
example : unquote "a%20b.pdf" = "a b.pdf" := by decide
example : unquote "%%41" = "%A" := by decide
example : unquote "%4" = "%4" := by decide
example : url_to_filename "https://example.com/a%20b.pdf" = "a b.pdf" := by decide
example : url_to_filename "https://example.com/a/" = "" := by decide

/-! ### The extractor: `re.findall` for the pattern `^\s*"url":\s*".*?"`
with `re.MULTILINE` (`extract_url_lines` in `main.py`).

The pattern is deterministic: `\s*` is greedy but `"` is not a whitespace
character, so the maximal whitespace run is the only viable choice, and the
lazy `.*?"` stops at the first `"` (`.` matches anything but `\n`).
`findall` scans left to right; `^` holds at offset 0 and right after each
`\n`; after a hit the scan resumes past the matched text, so matches never
overlap. -/

/-- The literal `"url":` part of the pattern. -/
def urlKeyLit : List Char := ['"', 'u', 'r', 'l', '"', ':']

/-- Strip an expected literal from the front of the input. -/
def dropLit : List Char → List Char → Option (List Char)
  | [], r => some r
  | _ :: _, [] => none
  | l :: ls, c :: cs => if c = l then dropLit ls cs else none

/-- Scan the lazily-matched value `.*?"`: characters other than `"` and
`\n` up to the first `"`.  Returns the value and the rest after the
closing quote. -/
def scanValue : List Char → Option (List Char × List Char)
  | [] => none
  | c :: rest =>
    if c = '"' then some ([], rest)
    else if c = '\n' then none
    else match scanValue rest with
      | some vr => some (c :: vr.1, vr.2)
      | none => none

/-- Try the whole pattern at the current position.  On success, returns the
matched text and the remaining input. -/
def matchHere (cs : List Char) : Option (List Char × List Char) :=
  let w1 := cs.takeWhile pyIsSpace
  match dropLit urlKeyLit (cs.dropWhile pyIsSpace) with
  | none => none
  | some r2 =>
    let w2 := r2.takeWhile pyIsSpace
    match r2.dropWhile pyIsSpace with
    | '"' :: r4 =>
      match scanValue r4 with
      | some vr => some (w1 ++ urlKeyLit ++ w2 ++ '"' :: vr.1 ++ ['"'], vr.2)
      | none => none
    | _ => none

/-- The `findall` scan.  `i` is the absolute offset of the current
position, `atStart` records whether `^` holds there.  The fuel argument
(always instantiated above the input length) keeps the recursion
structural so that the scanner evaluates inside the kernel. -/
def scanFindP : Nat → Nat → Bool → List Char → List (Nat × List Char)
  | 0, _, _, _ => []
  | _ + 1, _, _, [] => []
  | fuel + 1, i, atStart, c :: rest =>
    if atStart then
      match matchHere (c :: rest) with
      | some mr => (i, mr.1) :: scanFindP fuel (i + mr.1.length) false mr.2
      | none => scanFindP fuel (i + 1) (c = '\n') rest
    else scanFindP fuel (i + 1) (c = '\n') rest

/-- All pattern matches of the input text, with their start offsets. -/
def extract_url_matches (text : String) : List (Nat × String) :=
  (scanFindP (text.toList.length + 1) 0 true text.toList).map
    (fun pm => (pm.1, ⟨pm.2⟩))

/-- `extract_url_lines` from `main.py`: `re.findall` returns the matched
texts in scan order. -/
def extract_url_lines (text : String) : List String :=
  (extract_url_matches text).map Prod.snd

example : extract_url_lines "\n  \"url\": \"x\"" = ["\n  \"url\": \"x\""] := by decide
example : extract_url_lines "\"url\":\n\"url\": \"x\"" = ["\"url\":\n\"url\""] := by decide
example : extract_url_lines "  \"url\": \"a\"\n\"url\": \"b\"" =
    ["  \"url\": \"a\"", "\"url\": \"b\""] := by decide
example : extract_url_lines "  \"url\": \"a\", \"x\": 1" = ["  \"url\": \"a\""] := by decide
example : extract_url_lines "nothing here" = [] := by decide
example : extract_url_lines "x \"url\": \"a\"" = [] := by decide

/-! ### Normalization pipeline (`main.py` lines 204-211) -/

/-- `remove_whitespace_from_slice`:
`[line.strip() for line in provided_slice if line.strip()]`. -/
def remove_whitespace_from_slice (provided_slice : List String) : List String :=
  provided_slice.filterMap (fun line =>
    if pyStrip line = "" then none else some (pyStrip line))

/-- `convert_uppercase_to_lowercase`: `[line.lower() for line in ...]`. -/
def convert_uppercase_to_lowercase (provided_slice : List String) : List String :=
  provided_slice.map pyLower

/-- `remove_duplicates_from_slice`: `list(set(provided_slice.splitlines()))`.
Python's set iteration order is unspecified; the model fixes the
first-occurrence order. -/
def remove_duplicates_from_slice (provided_slice : String) : List String :=
  (pySplitlines provided_slice).dedup

/-- The whole normalization applied in `main`:
strip/drop-empty, lowercase, then
`remove_duplicates_from_slice("\n".join(url_lines))`. -/
def normalize_lines (url_lines : List String) : List String :=
  remove_duplicates_from_slice
    (pyJoin "\n" (convert_uppercase_to_lowercase
      (remove_whitespace_from_slice url_lines)))

example : normalize_lines ["  A.PDF ", "a.pdf", "", "b"] = ["a.pdf", "b"] := by decide

/-! ### Fetcher: filesystem state, network oracle, `download_pdf` -/

/-- `os.path.join` for two components (POSIX rules). -/
def os_path_join (a b : String) : String :=
  if b.toList.head? = some '/' then b
  else if a = "" || a.toList.getLast? = some '/' then a ++ b
  else a ++ "/" ++ b

example : os_path_join "PDFs" "a b.pdf" = "PDFs/a b.pdf" := by decide
example : os_path_join "PDFs" "" = "PDFs/" := by decide

/-- Filesystem state: existing directories and regular files with their
byte contents. -/
structure FS where
  dirs : List String
  files : List (String × List Nat)
  deriving DecidableEq

/-- `check_file_exists` from `main.py` (`os.path.isfile`), over the
modelled filesystem state. -/
def check_file_exists (fs : FS) (system_path : String) : Bool :=
  fs.files.any (fun kv => kv.1 = system_path)

/-- `os.makedirs(name, exist_ok=True)`. -/
def makedirs (fs : FS) (name : String) : FS :=
  if fs.dirs.contains name then fs else { fs with dirs := name :: fs.dirs }

/-- Open for writing (`'wb'` truncates) and write the given bytes. -/
def writeFileBytes (fs : FS) (p : String) (content : List Nat) : FS :=
  { fs with files := (p, content) :: fs.files.filter (fun kv => kv.1 ≠ p) }

/-- Outcome of one `requests.get` call, as seen by `download_pdf`:
a successful streamed body, a `RequestException` raised at `get` /
`raise_for_status` (connection failure or non-2xx status), or a
`RequestException` raised while iterating the body after the listed
chunks were already written. -/
inductive NetResult where
  | ok (chunks : List (List Nat))
  | preOpenFailure
  | midStreamFailure (chunks : List (List Nat))
  deriving DecidableEq

/-- Download outcome of `download_pdf` (the printed messages of the three
exit paths of the function). -/
inductive Outcome where
  | skipped
  | downloaded
  | failed
  deriving DecidableEq, Repr

/-- Streamed body content actually written: the code skips empty chunks
(`if chunk:`). -/
def flattenChunks (chunks : List (List Nat)) : List Nat :=
  (chunks.filter (fun c => c ≠ [])).flatten

/-- `download_pdf(pdf_url, local_file_path)` from `main.py`.  The function
overwrites `local_file_path` with `os.path.join("PDFs", url_to_filename(pdf_url))`
before any use.  Returns the new filesystem, the outcome, and the list of
network requests issued (URLs, in order).  Any `RequestException` is caught
inside the function: the model is total and the run never aborts on one. -/
def download_pdf (net : String → NetResult) (fs : FS)
    (pdf_url local_file_path : String) : FS × Outcome × List String :=
  let save_folder := "PDFs"
  let fs1 := makedirs fs save_folder
  let filename := url_to_filename pdf_url
  let local_file_path := os_path_join save_folder filename
  if check_file_exists fs1 local_file_path then (fs1, Outcome.skipped, [])
  else
    match net pdf_url with
    | NetResult.ok chunks =>
      (writeFileBytes fs1 local_file_path (flattenChunks chunks),
        Outcome.downloaded, [pdf_url])
    | NetResult.preOpenFailure => (fs1, Outcome.failed, [pdf_url])
    | NetResult.midStreamFailure chunks =>
      (writeFileBytes fs1 local_file_path (flattenChunks chunks),
        Outcome.failed, [pdf_url])

/-- The hard-coded target path `download_pdf` checks and writes. -/
def target_path (url : String) : String :=
  os_path_join "PDFs" (url_to_filename url)

/-! ### The download loop of `main` (lines 217-229) and the manifest -/

/-- `append_write_to_file`: opening in mode `"a"` and writing appends the
content to the existing file text. -/
def append_write_to_file (file_text content : String) : String :=
  file_text ++ content

/-- Selection test of `main`: `".pdf" in line or ".docx" in line`
(checked on the normalized line, before prefix/suffix stripping). -/
def selected_line (line : String) : Bool :=
  strContains line ".pdf" || strContains line ".docx"

/-- Prefix/suffix stripping of `main`:
`line.removeprefix('"url": "').removesuffix('.thumb.319.319.png"')`. -/
def candidate_of (line : String) : String :=
  pyRemoveEnd (pyRemoveStart line "\"url\": \"") ".thumb.319.319.png\""

/-- State carried through the download loop: the filesystem, the content
of `extracted_urls.txt`, and the network requests issued so far. -/
structure RunState where
  fs : FS
  manifest : String
  requests : List String
  deriving DecidableEq

/-- One iteration of the loop in `main`: skip unselected lines; otherwise
strip prefix/suffix, download, and append the candidate to the manifest. -/
def process_line (net : String → NetResult) (st : RunState) (line : String) :
    RunState × Option Outcome :=
  if selected_line line then
    let cand := candidate_of line
    let filename := url_to_filename cand
    let dl := download_pdf net st.fs cand filename
    ({ fs := dl.1,
       manifest := append_write_to_file st.manifest (cand ++ "\n"),
       requests := st.requests ++ dl.2.2 }, some dl.2.1)
  else (st, none)

/-- The whole download loop over the normalized URL lines.  Returns the
final state and the outcome of each selected line, in order. -/
def run_download_loop (net : String → NetResult) :
    RunState → List String → RunState × List Outcome
  | st, [] => (st, [])
  | st, l :: ls =>
    let step := process_line net st l
    let rest := run_download_loop net step.1 ls
    (rest.1, match step.2 with
      | some oc => oc :: rest.2
      | none => rest.2)

/-- Two calls of `download_pdf` with the same URL and destination, no
external change in between: total number of network requests issued. -/
def two_call_requests (net : String → NetResult) (fs : FS)
    (pdf_url local_file_path : String) : Nat :=
  let r1 := download_pdf net fs pdf_url local_file_path
  let r2 := download_pdf net r1.1 pdf_url local_file_path
  r1.2.2.length + r2.2.2.length

/-! ### Validator (`validate_pdf_file`, the sweep in `main`, lines 236-248) -/

/-- Result of `fitz.open(file_path)` as `validate_pdf_file` can observe it:
either the parser raises (PyMuPDF signals unopenable/corrupt documents with
`RuntimeError` subclasses), or it yields a document with a page count. -/
inductive FitzOpenResult where
  | parseFailure (msg : String)
  | doc (page_count : Nat)
  deriving DecidableEq

/-- `validate_pdf_file` from `main.py`, over the observed open result: a
parse failure is caught and becomes `false`; a document with zero pages is
`false`; anything else is `true`.  The function is total: no exception
escapes it. -/
def validate_pdf_file (r : FitzOpenResult) : Bool :=
  match r with
  | FitzOpenResult.parseFailure _ => false
  | FitzOpenResult.doc page_count => if page_count = 0 then false else true

/-- `get_filename_and_extension`: `os.path.basename`. -/
def get_filename_and_extension (path : String) : String :=
  os_path_basename path

/-- `check_upper_case_letter`: `any(ch.isupper() for ch in content)`. -/
def check_upper_case_letter (content : String) : Bool :=
  content.toList.any pyIsUpperChar

/-- Record produced by the validation sweep: which files were removed and
which filenames were flagged for an uppercase letter. -/
structure SweepResult where
  removed : List String
  flagged : List String
  deriving DecidableEq

/-- The sweep loop of `main`: for each enumerated file, delete it when
validation fails, and - independently, on every file - flag it when its
bare filename contains an uppercase letter (the flag is only recorded,
nothing else happens).  `valid` is the oracle `validate_pdf_file ∘ fitz.open`
for the file at the given path. -/
def sweep (valid : String → Bool) : SweepResult → List String → SweepResult
  | st, [] => st
  | st, pdf_file :: rest =>
    let st1 := if valid pdf_file = false then
        { st with removed := st.removed ++ [pdf_file] }
      else st
    let st2 := if check_upper_case_letter (get_filename_and_extension pdf_file) then
        { st1 with flagged := st1.flagged ++ [pdf_file] }
      else st1
    sweep valid st2 rest

/-! ### Auxiliary definitions used by the statements below -/

/-- Concatenation of a list of strings (for stating what the manifest
accumulates). -/
def concatStrings : List String → String
  | [] => ""
  | s :: ss => s ++ concatStrings ss

/-- A network outcome that raises a `RequestException`
(transport failure or non-2xx status via `raise_for_status`, or a
mid-stream failure). -/
def isNetFailure : NetResult → Bool
  | NetResult.ok _ => false
  | NetResult.preOpenFailure => true
  | NetResult.midStreamFailure _ => true

/-- A network oracle on which every request fails before the output file
is opened. -/
def netFail : String → NetResult := fun _ => NetResult.preOpenFailure

/-- The empty filesystem. -/
def fs_empty : FS := { dirs := [], files := [] }

/-- Sample input text for the end-to-end scenario: a capture fragment
containing the URL line of interest among non-matching lines. -/
def sample_har : String :=
  "  \"status\": 200,\n  \"url\": \"https://example.com/a%20b.pdf.thumb.319.319.png\"\n  \"next\": true"

/-- The shape required by the claim for every extracted string: optional
leading whitespace, the literal `"url":`, optional whitespace, and a
double-quoted value that contains no quote and no newline. -/
def IsUrlShape (s : String) : Prop :=
  ∃ w1 w2 v : List Char,
    s.toList = w1 ++ urlKeyLit ++ w2 ++ '"' :: v ++ ['"'] ∧
    (∀ c ∈ w1, pyIsSpace c = true) ∧
    (∀ c ∈ w2, pyIsSpace c = true) ∧
    (∀ c ∈ v, c ≠ '"' ∧ c ≠ '\n')

/-- Offset `i` is a line start of `text` in the sense of `re.MULTILINE`'s
`^`: the start of the string, or the position right after a `\n`. -/
def LineStartAt (text : String) (i : Nat) : Prop :=
  i = 0 ∨ text.toList.get? (i - 1) = some '\n'

/-- The pattern matches somewhere in the text (at some line start). -/
def HasUrlMatch (text : String) : Prop :=
  ∃ i, LineStartAt text i ∧ (matchHere (text.toList.drop i)).isSome = true

/-- A line free of `str.splitlines` line boundaries. -/
def noLineBreaks (s : String) : Bool :=
  s.toList.all (fun c => !isLineBreakChar c)

/-- Input refuting idempotence of the normalization as implemented: a
single line with two interior vertical tabs (`"a\x0b\x0bb"`).  Python
`str.strip` does not remove interior `\x0b`, but `str.splitlines` (used by
`remove_duplicates_from_slice`) splits at it. -/
def c7_input : List String := [String.mk ['a', Char.ofNat 11, Char.ofNat 11, 'b']]

/-- Split a character list at every occurrence of `sep` (Python
`str.split(sep)` semantics: empty fields kept, one more field than
separators). -/
def splitCharList (sep : Char) : List Char → List (List Char)
  | [] => [[]]
  | c :: rest =>
    match splitCharList sep rest with
    | [] => [[]]
    | g :: gs => if c = sep then [] :: g :: gs else (c :: g) :: gs

/-- The final segment of a path: the last field of splitting at `/`
(spec wording: "its final path segment"). -/
def lastSegment (p : String) : String :=
  ⟨(splitCharList '/' p.toList).getLastD []⟩

/-- The path has at least one non-empty segment, i.e. contains a
character other than `/`. -/
def has_nonempty_segment (p : String) : Bool :=
  p.toList.any (fun c => c ≠ '/')

/-- Concrete extractor input used to witness the extractor theorem. -/
def c4_text : String := "  \"url\": \"x\"\nrest"

example : lastSegment "/a/b c.pdf" = "b c.pdf" := by decide
example : lastSegment "/a/" = "" := by decide
example : splitCharList '/' "a/b".toList = ["a".toList, "b".toList] := by decide

/-! ### Helper lemmas -/

theorem check_file_exists_makedirs (fs : FS) (d p : String) :
    check_file_exists (makedirs fs d) p = check_file_exists fs p := by
  unfold makedirs check_file_exists
  split <;> rfl

theorem check_file_exists_writeFileBytes (fs : FS) (p : String) (c : List Nat) :
    check_file_exists (writeFileBytes fs p c) p = true := by
  simp [check_file_exists, writeFileBytes]

theorem str_append_empty (s : String) : s ++ "" = s := by
  simp [String.ext_iff]

theorem str_append_assoc (a b c : String) : a ++ b ++ c = a ++ (b ++ c) := by
  simp [String.ext_iff]

theorem run_download_loop_length (net : String → NetResult) (st : RunState)
    (lines : List String) :
    ((run_download_loop net st lines).2).length = (lines.filter selected_line).length := by
  induction lines generalizing st with
  | nil => rfl
  | cons l ls ih =>
    by_cases hl : selected_line l = true
    · simp [run_download_loop, process_line, hl, ih]
    · simp only [Bool.not_eq_true] at hl
      simp [run_download_loop, process_line, hl, ih]

theorem sweep_fields (valid : String → Bool) (files : List String)
    (st : SweepResult) :
    (sweep valid st files).flagged =
      st.flagged ++ files.filter
        (fun f => check_upper_case_letter (get_filename_and_extension f)) ∧
    (sweep valid st files).removed =
      st.removed ++ files.filter (fun f => !valid f) := by
  induction files generalizing st with
  | nil => simp [sweep]
  | cons f rest ih =>
    by_cases hv : valid f = true <;> by_cases hu : check_upper_case_letter (get_filename_and_extension f) = true
    · simp [sweep, hv, hu, ih]
    · simp only [Bool.not_eq_true] at hu
      simp [sweep, hv, hu, ih]
    · simp only [Bool.not_eq_true] at hv
      simp [sweep, hv, hu, ih]
    · simp only [Bool.not_eq_true] at hv hu
      simp [sweep, hv, hu, ih]

/-! ### Claim theorems -/

/-- C1: on an input text containing the line
`  "url": "https://example.com/a%20b.pdf.thumb.319.319.png"`, the pipeline
(extract, strip whitespace, lowercase, dedup) yields the normalized line,
that line is selected, prefix/suffix stripping produces the candidate
`https://example.com/a%20b.pdf`, and `url_to_filename` on the candidate
returns the percent-decoded filename `a b.pdf`. -/
theorem url_pipeline_end_to_end :
    normalize_lines (extract_url_lines sample_har) =
      ["\"url\": \"https://example.com/a%20b.pdf.thumb.319.319.png\""] ∧
    selected_line "\"url\": \"https://example.com/a%20b.pdf.thumb.319.319.png\"" = true ∧
    candidate_of "\"url\": \"https://example.com/a%20b.pdf.thumb.319.319.png\"" =
      "https://example.com/a%20b.pdf" ∧
    url_to_filename "https://example.com/a%20b.pdf" = "a b.pdf" :=
  ⟨by decide, by decide, by decide, by decide⟩

/-- C3: `validate_pdf_file` returns `false` exactly when the document
cannot be opened (the parser raises) or opens with zero pages, and `true`
otherwise; the function is total, so a parse failure is converted to
`false` and never propagated. -/
theorem validate_pdf_file_false_iff (r : FitzOpenResult) :
    validate_pdf_file r = false ↔
      (∃ m, r = FitzOpenResult.parseFailure m) ∨ r = FitzOpenResult.doc 0 := by
  cases r with
  | parseFailure m => simp [validate_pdf_file]
  | doc n =>
    cases n with
    | zero => simp [validate_pdf_file]
    | succ k => simp [validate_pdf_file]

/-- C9: the sweep flags exactly the files whose bare filename contains an
uppercase letter, independently of the validity oracle (so also files that
were just removed); removal is determined by the validity oracle alone, so
flagging has no effect beyond being recorded; `Report.pdf` is flagged and
`report.pdf` is not. -/
theorem sweep_flagging_spec (valid : String → Bool) (st : SweepResult)
    (files : List String) :
    (sweep valid st files).flagged =
      st.flagged ++ files.filter
        (fun f => check_upper_case_letter (get_filename_and_extension f)) ∧
    (sweep valid st files).removed =
      st.removed ++ files.filter (fun f => !valid f) ∧
    check_upper_case_letter (get_filename_and_extension "Report.pdf") = true ∧
    check_upper_case_letter (get_filename_and_extension "report.pdf") = false :=
  ⟨(sweep_fields valid files st).1, (sweep_fields valid files st).2,
    by decide, by decide⟩

/-- C10: `download_pdf` ignores its `local_file_path` argument - the
argument is overwritten before use - and the path it checks (and, when
downloading, writes) is always `os.path.join("PDFs", url_to_filename(url))`:
the call is `skipped` exactly when a file exists at that hard-coded path. -/
theorem download_pdf_ignores_path_arg (net : String → NetResult) (fs : FS)
    (url p q : String) :
    download_pdf net fs url p = download_pdf net fs url q ∧
    ((download_pdf net fs url p).2.1 = Outcome.skipped ↔
      check_file_exists fs (target_path url) = true) := by
  refine ⟨rfl, ?_⟩
  by_cases hc : check_file_exists fs (target_path url) = true
  · have hc' : check_file_exists fs (os_path_join "PDFs" (url_to_filename url)) = true := hc
    simp [download_pdf, target_path, check_file_exists_makedirs, hc']
  · simp only [Bool.not_eq_true] at hc
    have hc' : check_file_exists fs (os_path_join "PDFs" (url_to_filename url)) = false := hc
    cases hnet : net url <;>
      simp [download_pdf, target_path, check_file_exists_makedirs, hc', hnet]

/-- C2 (amended): if the target path already exists as a regular file,
`download_pdf` returns `skipped` and issues no network request; over two
consecutive calls with the same URL and destination and no external
deletion, the number of network requests is zero when the target already
existed, two when the first request fails before the output file is opened,
and exactly one otherwise (successful download, or a mid-stream failure
that leaves a partial file which makes the second call skip). -/
theorem download_pdf_skip_and_request_count (net : String → NetResult)
    (fs : FS) (url p : String) :
    ((download_pdf net fs url p).2.1 = Outcome.skipped ↔
      check_file_exists fs (target_path url) = true) ∧
    (download_pdf net fs url p).2.2 =
      (if check_file_exists fs (target_path url) then [] else [url]) ∧
    two_call_requests net fs url p =
      (if check_file_exists fs (target_path url) then 0
       else match net url with
         | NetResult.preOpenFailure => 2
         | _ => 1) := by
  by_cases hc : check_file_exists fs (target_path url) = true
  · have hc' : check_file_exists fs (os_path_join "PDFs" (url_to_filename url)) = true := hc
    simp [download_pdf, two_call_requests, target_path,
      check_file_exists_makedirs, hc']
  · simp only [Bool.not_eq_true] at hc
    have hc' : check_file_exists fs (os_path_join "PDFs" (url_to_filename url)) = false := hc
    cases hnet : net url <;>
      simp [download_pdf, two_call_requests, target_path,
        check_file_exists_makedirs, check_file_exists_writeFileBytes, hc', hnet]

/-- C2 (counterexample): with an empty filesystem and a network on which
the request fails, calling `download_pdf` twice on the same URL and
destination with no external deletion in between issues two network
requests, not exactly one. -/
theorem fetch_twice_not_one_request :
    two_call_requests netFail fs_empty "https://example.com/a.pdf" "a.pdf" = 2 ∧
    ¬ two_call_requests netFail fs_empty "https://example.com/a.pdf" "a.pdf" = 1 :=
  ⟨by decide, by decide⟩

/-- C5: the run appends to the manifest exactly the candidate URL (plus a
newline) of every selected line - one containing `.pdf` or `.docx` - in
processing order, regardless of the download outcome (downloaded, skipped
or failed); the previous manifest content stays as a prefix, so the file
is never truncated or rewritten. -/
theorem manifest_append_only (net : String → NetResult) (st : RunState)
    (lines : List String) :
    (run_download_loop net st lines).1.manifest =
      st.manifest ++ concatStrings
        ((lines.filter selected_line).map (fun l => candidate_of l ++ "\n")) := by
  induction lines generalizing st with
  | nil => simp [run_download_loop, concatStrings, str_append_empty]
  | cons l ls ih =>
    by_cases hl : selected_line l = true
    · simp [run_download_loop, process_line, hl, ih, concatStrings,
        append_write_to_file, str_append_assoc]
    · simp only [Bool.not_eq_true] at hl
      simp [run_download_loop, process_line, hl, ih]

/-- C6: when the request for a URL fails - transport error, non-2xx
status, or mid-stream failure - and the target file did not already exist,
`download_pdf` returns the `failed` outcome (totally, no exception
escapes), exactly one request was issued for it (no retry, no backoff),
and the download loop still produces one outcome per selected line, so the
run continues with the next URL. -/
theorem transport_failure_contained (net : String → NetResult) (fs : FS)
    (url p : String)
    (hex : check_file_exists fs (target_path url) = false)
    (hfail : isNetFailure (net url) = true) :
    (download_pdf net fs url p).2.1 = Outcome.failed ∧
    (download_pdf net fs url p).2.2 = [url] ∧
    ∀ st lines, ((run_download_loop net st lines).2).length =
      (lines.filter selected_line).length := by
  have hc' : check_file_exists fs (os_path_join "PDFs" (url_to_filename url)) = false := hex
  refine ⟨?_, ?_, fun st lines => run_download_loop_length net st lines⟩ <;>
    cases hnet : net url <;>
      simp [hnet, isNetFailure] at hfail ⊢ <;>
        simp [download_pdf, check_file_exists_makedirs, hc', hnet]

/-- C6 (witness): the failure containment theorem applied to a concrete
failing network, URL and empty filesystem. -/
theorem transport_failure_contained_witness :
    check_file_exists fs_empty (target_path "https://example.com/a.pdf") = false ∧
    isNetFailure (netFail "https://example.com/a.pdf") = true ∧
    (download_pdf netFail fs_empty "https://example.com/a.pdf" "a.pdf").2.1 =
      Outcome.failed :=
  ⟨by decide, by decide,
    (transport_failure_contained netFail fs_empty "https://example.com/a.pdf"
      "a.pdf" (by decide) (by decide)).1⟩

/-! ### Lemmas for the normalization idempotence claim -/

theorem toNat_ofNat_of_lt {n : Nat} (h : n < 55296) : (Char.ofNat n).toNat = n := by
  have hv : n.isValidChar := Or.inl h
  rw [Char.ofNat, dif_pos hv]
  unfold Char.ofNatAux
  unfold Char.toNat
  simp [UInt32.toNat]

theorem toNat_pyLowerChar (c : Char) :
    (pyLowerChar c).toNat =
      if 65 ≤ c.toNat && c.toNat ≤ 90 then c.toNat + 32 else c.toNat := by
  by_cases h : (65 ≤ c.toNat && c.toNat ≤ 90) = true
  · have h2 : c.toNat ≤ 90 := by
      simp only [Bool.and_eq_true, decide_eq_true_eq] at h
      exact h.2
    have hlt : c.toNat + 32 < 55296 := by omega
    simp [pyLowerChar, h, toNat_ofNat_of_lt hlt]
  · simp only [Bool.not_eq_true] at h
    simp [pyLowerChar, h]

theorem pyIsSpace_false_of_range (c : Char) (h1 : 33 ≤ c.toNat)
    (h2 : c.toNat ≤ 127) : pyIsSpace c = false := by
  unfold pyIsSpace
  simp only [Bool.or_eq_false_iff, Bool.and_eq_false_iff, decide_eq_false_iff_not]
  omega

theorem isLineBreakChar_false_of_range (c : Char) (h1 : 33 ≤ c.toNat)
    (h2 : c.toNat ≤ 127) : isLineBreakChar c = false := by
  unfold isLineBreakChar
  simp only [Bool.or_eq_false_iff, Bool.and_eq_false_iff, decide_eq_false_iff_not]
  omega

theorem pyLowerChar_eq_self (c : Char) (h : (65 ≤ c.toNat && c.toNat ≤ 90) = false) :
    pyLowerChar c = c := by
  unfold pyLowerChar
  simp [h]

theorem pyIsSpace_pyLowerChar (c : Char) :
    pyIsSpace (pyLowerChar c) = pyIsSpace c := by
  by_cases h : (65 ≤ c.toNat && c.toNat ≤ 90) = true
  · have hn : (pyLowerChar c).toNat = c.toNat + 32 := by
      rw [toNat_pyLowerChar, if_pos h]
    simp only [Bool.and_eq_true, decide_eq_true_eq] at h
    rw [pyIsSpace_false_of_range _ (by omega) (by omega),
      pyIsSpace_false_of_range c (by omega) (by omega)]
  · rw [pyLowerChar_eq_self c (by simpa using h)]

theorem isLineBreakChar_pyLowerChar (c : Char) :
    isLineBreakChar (pyLowerChar c) = isLineBreakChar c := by
  by_cases h : (65 ≤ c.toNat && c.toNat ≤ 90) = true
  · have hn : (pyLowerChar c).toNat = c.toNat + 32 := by
      rw [toNat_pyLowerChar, if_pos h]
    simp only [Bool.and_eq_true, decide_eq_true_eq] at h
    rw [isLineBreakChar_false_of_range _ (by omega) (by omega),
      isLineBreakChar_false_of_range c (by omega) (by omega)]
  · rw [pyLowerChar_eq_self c (by simpa using h)]

theorem pyLowerChar_idem (c : Char) :
    pyLowerChar (pyLowerChar c) = pyLowerChar c := by
  by_cases h : (65 ≤ c.toNat && c.toNat ≤ 90) = true
  · have hn : (pyLowerChar c).toNat = c.toNat + 32 := by
      rw [toNat_pyLowerChar, if_pos h]
    simp only [Bool.and_eq_true, decide_eq_true_eq] at h
    refine pyLowerChar_eq_self _ ?_
    simp only [hn, Bool.and_eq_false_iff, decide_eq_false_iff_not]
    omega
  · rw [pyLowerChar_eq_self c (by simpa using h),
      pyLowerChar_eq_self c (by simpa using h)]

theorem head_dropWhile_false {α} (p : α → Bool) (l : List α) :
    ∀ x ∈ (l.dropWhile p).head?, p x = false := by
  induction l with
  | nil => simp
  | cons c rest ih =>
    by_cases hc : p c = true
    · simpa [List.dropWhile_cons_of_pos hc] using ih
    · have hc2 : ¬ p c = true := hc
      simp only [Bool.not_eq_true] at hc
      simp [List.dropWhile_cons_of_neg hc2, hc]

theorem dropWhile_eq_self_of_head {α} (p : α → Bool) :
    ∀ l : List α, (∀ x ∈ l.head?, p x = false) → l.dropWhile p = l
  | [], _ => rfl
  | c :: rest, h => by
    have hc : p c = false := h c rfl
    have hc2 : ¬ p c = true := by simp [hc]
    simp [List.dropWhile_cons_of_neg hc2]

theorem strip_of_ends (s : String)
    (hh : ∀ x ∈ s.toList.head?, pyIsSpace x = false)
    (hl : ∀ x ∈ s.toList.getLast?, pyIsSpace x = false) : pyStrip s = s := by
  unfold pyStrip
  rw [dropWhile_eq_self_of_head _ _ hh]
  rw [dropWhile_eq_self_of_head _ _ (by rw [List.head?_reverse]; exact hl)]
  simp [String.ext_iff]

theorem head_pyStrip (s : String) :
    ∀ x ∈ (pyStrip s).toList.head?, pyIsSpace x = false := by
  intro x hx
  unfold pyStrip at hx
  rw [show (⟨((s.toList.dropWhile pyIsSpace).reverse.dropWhile pyIsSpace).reverse⟩ :
      String).toList =
      ((s.toList.dropWhile pyIsSpace).reverse.dropWhile pyIsSpace).reverse from rfl,
    List.head?_reverse] at hx
  by_cases hB : (s.toList.dropWhile pyIsSpace).reverse.dropWhile pyIsSpace = []
  · rw [hB] at hx
    simp at hx
  · obtain ⟨t, ht⟩ := List.dropWhile_suffix
      (l := (s.toList.dropWhile pyIsSpace).reverse) pyIsSpace
    have hlast : ((s.toList.dropWhile pyIsSpace).reverse.dropWhile pyIsSpace).getLast? =
        ((s.toList.dropWhile pyIsSpace).reverse).getLast? := by
      conv_rhs => rw [← ht]
      rw [List.getLast?_append_of_ne_nil _ hB]
    rw [hlast, List.getLast?_reverse] at hx
    exact head_dropWhile_false pyIsSpace s.toList x hx

theorem last_pyStrip (s : String) :
    ∀ x ∈ (pyStrip s).toList.getLast?, pyIsSpace x = false := by
  intro x hx
  unfold pyStrip at hx
  rw [show (⟨((s.toList.dropWhile pyIsSpace).reverse.dropWhile pyIsSpace).reverse⟩ :
      String).toList =
      ((s.toList.dropWhile pyIsSpace).reverse.dropWhile pyIsSpace).reverse from rfl,
    List.getLast?_reverse] at hx
  exact head_dropWhile_false pyIsSpace _ x hx

theorem mem_pyStrip (s : String) : ∀ x ∈ (pyStrip s).toList, x ∈ s.toList := by
  intro x hx
  unfold pyStrip at hx
  rw [show (⟨((s.toList.dropWhile pyIsSpace).reverse.dropWhile pyIsSpace).reverse⟩ :
      String).toList =
      ((s.toList.dropWhile pyIsSpace).reverse.dropWhile pyIsSpace).reverse from rfl] at hx
  rw [List.mem_reverse] at hx
  have h1 := (List.dropWhile_suffix pyIsSpace).mem hx
  rw [List.mem_reverse] at h1
  exact (List.dropWhile_suffix pyIsSpace).mem h1

theorem filterMap_eq_self_of {α} (f : α → Option α) (l : List α)
    (h : ∀ x ∈ l, f x = some x) : l.filterMap f = l := by
  induction l with
  | nil => rfl
  | cons c rest ih =>
    rw [List.filterMap_cons, h c (by simp)]
    rw [ih (fun x hx => h x (by simp [hx]))]

theorem splitLinesAux_append_newline (rest : List Char) :
    ∀ (xs acc : List Char), (∀ x ∈ xs, isLineBreakChar x = false) →
      splitLinesAux acc (xs ++ '\n' :: rest) =
        ⟨acc.reverse ++ xs⟩ :: splitLinesAux [] rest := by
  intro xs
  induction xs with
  | nil =>
    intro acc h
    simp [splitLinesAux]
    intro hbad
    simp [isLineBreakChar] at hbad
  | cons x xs ih =>
    intro acc h
    have hx : isLineBreakChar x = false := h x (by simp)
    have hxr : ¬ x = '\r' := by
      intro he
      rw [he] at hx
      simp [isLineBreakChar] at hx
    simp only [List.cons_append]
    simp [splitLinesAux, hxr, hx]
    rw [ih (x :: acc) (fun y hy => h y (by simp [hy]))]
    simp

theorem splitLinesAux_no_breaks :
    ∀ (xs acc : List Char), (∀ x ∈ xs, isLineBreakChar x = false) →
      splitLinesAux acc xs =
        if (acc.reverse ++ xs).isEmpty then [] else [⟨acc.reverse ++ xs⟩] := by
  intro xs
  induction xs with
  | nil =>
    intro acc h
    simp [splitLinesAux]
  | cons x xs ih =>
    intro acc h
    have hx : isLineBreakChar x = false := h x (by simp)
    have hxr : ¬ x = '\r' := by
      intro he
      rw [he] at hx
      simp [isLineBreakChar] at hx
    simp [splitLinesAux, hxr, hx]
    rw [ih (x :: acc) (fun y hy => h y (by simp [hy]))]
    simp

theorem noLineBreaks_forall {s : String} (h : noLineBreaks s = true) :
    ∀ x ∈ s.toList, isLineBreakChar x = false := by
  intro x hx
  unfold noLineBreaks at h
  rw [List.all_eq_true] at h
  simpa using h x hx

theorem pyJoin_splitlines (ls : List String)
    (h : ∀ l ∈ ls, l ≠ "" ∧ noLineBreaks l = true) :
    pySplitlines (pyJoin "\n" ls) = ls := by
  induction ls with
  | nil => rfl
  | cons x ls ih =>
    obtain ⟨hx0, hxb⟩ := h x (by simp)
    cases ls with
    | nil =>
      unfold pySplitlines pyJoin
      rw [splitLinesAux_no_breaks x.toList [] (noLineBreaks_forall hxb)]
      have hne : x.toList ≠ [] := by
        intro hc
        exact hx0 (by simpa [String.ext_iff] using hc)
      simp [List.isEmpty_iff]
      exact hne
    | cons y ys =>
      unfold pySplitlines
      have hsplit : (pyJoin "\n" (x :: y :: ys)).toList =
          x.toList ++ '\n' :: (pyJoin "\n" (y :: ys)).toList := by
        show (x ++ "\n" ++ pyJoin "\n" (y :: ys)).toList = _
        simp [String.ext_iff]
      rw [hsplit,
        splitLinesAux_append_newline _ x.toList [] (noLineBreaks_forall hxb)]
      have := ih (fun l hl => h l (by simp [hl]))
      unfold pySplitlines at this
      rw [this]
      simp

theorem mem_normalize_core (ls : List String)
    (h : ∀ l ∈ ls, noLineBreaks l = true) :
    ∀ m ∈ convert_uppercase_to_lowercase (remove_whitespace_from_slice ls),
      m ≠ "" ∧ noLineBreaks m = true ∧ pyStrip m = m ∧ pyLower m = m := by
  intro m hm
  unfold convert_uppercase_to_lowercase at hm
  rw [List.mem_map] at hm
  obtain ⟨t, ht, rfl⟩ := hm
  unfold remove_whitespace_from_slice at ht
  rw [List.mem_filterMap] at ht
  obtain ⟨l, hl, hfl⟩ := ht
  by_cases hs : pyStrip l = ""
  · rw [if_pos hs] at hfl
    exact absurd hfl (by simp)
  rw [if_neg hs] at hfl
  have ht2 : pyStrip l = t := (Option.some.injEq _ _).mp hfl
  subst ht2
  refine ⟨?_, ?_, ?_, ?_⟩
  · intro hc
    apply hs
    have h0 := congrArg String.toList hc
    simp only [pyLower] at h0
    rw [show ((⟨(pyStrip l).toList.map pyLowerChar⟩ : String)).toList =
      (pyStrip l).toList.map pyLowerChar from rfl] at h0
    have h1 : (pyStrip l).toList = [] := List.map_eq_nil_iff.mp h0
    rw [String.ext_iff]
    simpa using h1
  · unfold noLineBreaks
    rw [List.all_eq_true]
    intro c hc
    simp only [pyLower] at hc
    rw [show ((⟨(pyStrip l).toList.map pyLowerChar⟩ : String)).toList =
      (pyStrip l).toList.map pyLowerChar from rfl] at hc
    rw [List.mem_map] at hc
    obtain ⟨y, hy, rfl⟩ := hc
    simp only [Bool.not_eq_true']
    rw [isLineBreakChar_pyLowerChar]
    exact noLineBreaks_forall (h l hl) y (mem_pyStrip l y hy)
  · apply strip_of_ends
    · intro x hx
      simp only [pyLower] at hx
      rw [show ((⟨(pyStrip l).toList.map pyLowerChar⟩ : String)).toList =
        (pyStrip l).toList.map pyLowerChar from rfl, List.head?_map] at hx
      rw [Option.mem_map] at hx
      obtain ⟨y, hy, rfl⟩ := hx
      rw [pyIsSpace_pyLowerChar]
      exact head_pyStrip l y hy
    · intro x hx
      simp only [pyLower] at hx
      rw [show ((⟨(pyStrip l).toList.map pyLowerChar⟩ : String)).toList =
        (pyStrip l).toList.map pyLowerChar from rfl, List.getLast?_map] at hx
      rw [Option.mem_map] at hx
      obtain ⟨y, hy, rfl⟩ := hx
      rw [pyIsSpace_pyLowerChar]
      exact last_pyStrip l y hy
  · rw [String.ext_iff]
    show ((pyStrip l).toList.map pyLowerChar).map pyLowerChar =
      (pyStrip l).toList.map pyLowerChar
    rw [List.map_map]
    exact List.map_eq_map_iff.mpr
      (fun c _ => by simp [Function.comp, pyLowerChar_idem])

/-- C7 (amended): the normalization pipeline as implemented (strip and
drop empty lines, lowercase, then `list(set("\n".join(...).splitlines()))`)
is idempotent on every list of lines that contain no line-boundary
characters; on such input the second application returns the first
application's output unchanged (so in particular the same set). -/
theorem normalize_idem_of_no_linebreaks (ls : List String)
    (h : ∀ l ∈ ls, noLineBreaks l = true) :
    normalize_lines (normalize_lines ls) = normalize_lines ls := by
  have hprops := mem_normalize_core ls h
  have hsplit : pySplitlines (pyJoin "\n"
      (convert_uppercase_to_lowercase (remove_whitespace_from_slice ls))) =
      convert_uppercase_to_lowercase (remove_whitespace_from_slice ls) :=
    pyJoin_splitlines _ (fun m hm => ⟨(hprops m hm).1, (hprops m hm).2.1⟩)
  have h1 : normalize_lines ls =
      (convert_uppercase_to_lowercase (remove_whitespace_from_slice ls)).dedup := by
    unfold normalize_lines remove_duplicates_from_slice
    rw [hsplit]
  rw [h1]
  have hmem : ∀ e ∈ (convert_uppercase_to_lowercase
      (remove_whitespace_from_slice ls)).dedup,
      e ≠ "" ∧ noLineBreaks e = true ∧ pyStrip e = e ∧ pyLower e = e :=
    fun e he => hprops e (List.mem_dedup.mp he)
  have hws : remove_whitespace_from_slice (convert_uppercase_to_lowercase
      (remove_whitespace_from_slice ls)).dedup =
      (convert_uppercase_to_lowercase (remove_whitespace_from_slice ls)).dedup := by
    unfold remove_whitespace_from_slice
    apply filterMap_eq_self_of
    intro e he
    rw [(hmem e he).2.2.1, if_neg (hmem e he).1]
  have hlc : convert_uppercase_to_lowercase (convert_uppercase_to_lowercase
      (remove_whitespace_from_slice ls)).dedup =
      (convert_uppercase_to_lowercase (remove_whitespace_from_slice ls)).dedup := by
    have hmapped : ((convert_uppercase_to_lowercase
        (remove_whitespace_from_slice ls)).dedup).map pyLower =
        ((convert_uppercase_to_lowercase
        (remove_whitespace_from_slice ls)).dedup).map id :=
      List.map_eq_map_iff.mpr (fun e he => (hmem e he).2.2.2)
    show ((convert_uppercase_to_lowercase
        (remove_whitespace_from_slice ls)).dedup).map pyLower =
      (convert_uppercase_to_lowercase (remove_whitespace_from_slice ls)).dedup
    rw [hmapped, List.map_id]
  unfold normalize_lines
  rw [hws, hlc]
  unfold remove_duplicates_from_slice
  rw [pyJoin_splitlines _ (fun e he => ⟨(hmem e he).1, (hmem e he).2.1⟩)]
  exact List.dedup_idem

/-- C7 (witness): idempotence at a concrete break-free input. -/
theorem normalize_idem_witness :
    (∀ l ∈ ["  A.PDF ", "a.pdf", "b"], noLineBreaks l = true) ∧
    normalize_lines (normalize_lines ["  A.PDF ", "a.pdf", "b"]) =
      normalize_lines ["  A.PDF ", "a.pdf", "b"] :=
  ⟨by decide, normalize_idem_of_no_linebreaks _ (by decide)⟩

/-- C7 (counterexample): on the single-line input `["a\x0b\x0bb"]` the
claimed idempotence fails: `str.strip` keeps the interior vertical tabs,
but `remove_duplicates_from_slice` re-splits at them, so the first
normalization yields the set containing `a`, the empty string and `b`,
and the second drops the empty string and returns a different set. -/
theorem normalize_not_idempotent :
    (normalize_lines (normalize_lines c7_input)).toFinset ≠
      (normalize_lines c7_input).toFinset := by decide

/-! ### Lemmas for the filename-derivation claim -/

theorem splitCharList_ne_nil (sep : Char) (cs : List Char) :
    splitCharList sep cs ≠ [] := by
  induction cs with
  | nil => simp [splitCharList]
  | cons c rest ih =>
    cases hsp : splitCharList sep rest with
    | nil => exact absurd hsp ih
    | cons g gs =>
      simp only [splitCharList, hsp]
      split <;> simp

theorem splitCharList_of_not_mem (sep : Char) (cs : List Char)
    (h : ∀ x ∈ cs, x ≠ sep) : splitCharList sep cs = [cs] := by
  induction cs with
  | nil => rfl
  | cons c rest ih =>
    have hrest := ih (fun x hx => h x (by simp [hx]))
    have hc : ¬ c = sep := h c (by simp)
    simp [splitCharList, hrest, hc]

theorem two_le_splitCharList_length (sep : Char) (cs : List Char)
    (h : sep ∈ cs) : 2 ≤ (splitCharList sep cs).length := by
  induction cs with
  | nil => simp at h
  | cons c rest ih =>
    cases hsp : splitCharList sep rest with
    | nil => exact absurd hsp (splitCharList_ne_nil sep rest)
    | cons g gs =>
      by_cases hc : c = sep
      · simp [splitCharList, hsp, hc]
      · have hrest : sep ∈ rest := by
          rcases List.mem_cons.mp h with he | hm
          · exact absurd he.symm hc
          · exact hm
        have := ih hrest
        rw [hsp] at this
        simp only [List.length_cons] at this
        simp [splitCharList, hsp, hc]
        omega

theorem takeWhile_append_last_false {P : Char → Bool} {a : Char}
    (ha : P a = false) (xs : List Char) :
    (xs ++ [a]).takeWhile P = xs.takeWhile P := by
  induction xs with
  | nil => simp [List.takeWhile_cons, ha]
  | cons x xs ih =>
    by_cases hx : P x = true
    · simp [List.takeWhile_cons, hx, ih]
    · simp only [Bool.not_eq_true] at hx
      simp [List.takeWhile_cons, hx]

theorem takeWhile_append_of_exists_false {P : Char → Bool} (xs ys : List Char)
    (h : ∃ x ∈ xs, P x = false) :
    (xs ++ ys).takeWhile P = xs.takeWhile P := by
  induction xs with
  | nil => simp at h
  | cons x xs ih =>
    by_cases hx : P x = true
    · obtain ⟨w, hw, hPw⟩ := h
      have hwxs : w ∈ xs := by
        rcases List.mem_cons.mp hw with he | hm
        · rw [he] at hPw
          rw [hPw] at hx
          exact absurd hx (by simp)
        · exact hm
      simp [List.takeWhile_cons, hx, ih ⟨w, hwxs, hPw⟩]
    · simp only [Bool.not_eq_true] at hx
      simp [List.takeWhile_cons, hx]

theorem getLastD_splitCharList (sep : Char) (cs : List Char) :
    (splitCharList sep cs).getLastD [] =
      (cs.reverse.takeWhile (fun c => c ≠ sep)).reverse := by
  induction cs with
  | nil => rfl
  | cons c rest ih =>
    cases hsp : splitCharList sep rest with
    | nil => exact absurd hsp (splitCharList_ne_nil sep rest)
    | cons g gs =>
      rw [hsp] at ih
      by_cases hc : c = sep
      · have hL : (splitCharList sep (c :: rest)).getLastD [] =
            (g :: gs).getLastD [] := by
          simp [splitCharList, hsp, hc]
        rw [hL, ih, List.reverse_cons,
          takeWhile_append_last_false (by simp [hc]) rest.reverse]
      · cases gs with
        | nil =>
          have hnosep : ∀ x ∈ rest, x ≠ sep := by
            intro x hx hxe
            have h2 := two_le_splitCharList_length sep rest (hxe ▸ hx)
            rw [hsp] at h2
            simp at h2
          have hrest : splitCharList sep rest = [rest] :=
            splitCharList_of_not_mem sep rest hnosep
          have hg : g = rest := by
            rw [hrest] at hsp
            exact (List.cons.injEq _ _ _ _).mp hsp.symm |>.1
          have hL : (splitCharList sep (c :: rest)).getLastD [] = c :: g := by
            simp [splitCharList, hsp, hc]
          rw [hL, hg, List.reverse_cons,
            List.takeWhile_append_of_pos (by
              intro a ha
              simp only [List.mem_reverse] at ha
              simp [hnosep a ha]),
            List.takeWhile_cons]
          simp [hc]
        | cons g2 gs2 =>
          have hsep : sep ∈ rest := by
            by_contra hn
            have : splitCharList sep rest = [rest] :=
              splitCharList_of_not_mem sep rest
                (fun x hx hxe => hn (hxe ▸ hx))
            rw [this] at hsp
            simp at hsp
          have hL : (splitCharList sep (c :: rest)).getLastD [] =
              (g :: g2 :: gs2).getLastD [] := by
            simp only [splitCharList, hsp]
            rw [if_neg hc]
            rw [List.getLastD_cons, List.getLastD_cons, List.getLastD_cons,
              List.getLastD_cons]
          rw [hL, ih, List.reverse_cons,
            takeWhile_append_of_exists_false rest.reverse [c]
              ⟨sep, by simp [hsep], by simp⟩]

theorem os_path_basename_eq_lastSegment (p : String) :
    os_path_basename p = lastSegment p := by
  unfold os_path_basename lastSegment
  rw [String.ext_iff]
  show (p.toList.reverse.takeWhile (fun c => c ≠ '/')).reverse =
    (splitCharList '/' p.toList).getLastD []
  rw [getLastD_splitCharList]

theorem unquoteList_ne_nil (c : Char) (rest : List Char) :
    unquoteList (c :: rest) ≠ [] := by
  by_cases hc : c = '%'
  · subst hc
    match rest with
    | [] => simp [unquoteList]
    | [a] => simp [unquoteList]
    | a :: b :: rest2 =>
      simp only [unquoteList]
      split <;> simp
  · match rest with
    | [] => simp [unquoteList]
    | [a] => simp [unquoteList]
    | a :: b :: rest2 => simp [unquoteList, hc]

theorem unquote_ne_empty (s : String) (h : s ≠ "") : unquote s ≠ "" := by
  intro hc
  cases hs : s.toList with
  | nil =>
    exact h (by rw [String.ext_iff]; simpa using hs)
  | cons c rest =>
    have : unquoteList s.toList = [] := by
      have := congrArg String.toList hc
      simpa [unquote] using this
    rw [hs] at this
    exact unquoteList_ne_nil c rest this

/-- C8 (counterexample): the URL `https://example.com/a/` has the
non-empty path segment `a`, yet `url_to_filename` returns the empty
string, because `os.path.basename` of the trailing-slash path `/a/` is
empty. -/
theorem url_to_filename_nonempty_segment_cex :
    has_nonempty_segment (urlparse_path "https://example.com/a/") = true ∧
    url_to_filename "https://example.com/a/" = "" :=
  ⟨by decide, by decide⟩

/-- C8 (amended): for every URL whose parsed path ends in a non-empty
final segment (the last field of splitting the path at `/`),
`url_to_filename` returns exactly the percent-decoding of that final
segment, and the result is non-empty; percent-decoding decodes `%XY` hex
escapes, e.g. `%20` to a space.  (When the final segment is empty - a
path with a trailing slash - the function returns the empty string even
if an earlier segment is non-empty, as the counterexample records.) -/
theorem url_to_filename_last_segment (url : String)
    (h : lastSegment (urlparse_path url) ≠ "") :
    url_to_filename url = unquote (lastSegment (urlparse_path url)) ∧
    url_to_filename url ≠ "" ∧
    unquote "a%20b.pdf" = "a b.pdf" := by
  have heq : url_to_filename url = unquote (lastSegment (urlparse_path url)) := by
    unfold url_to_filename
    rw [os_path_basename_eq_lastSegment]
  refine ⟨heq, ?_, by decide⟩
  rw [heq]
  exact unquote_ne_empty _ h

/-- C8 (witness): the amended theorem applied to the concrete URL
`https://example.com/a%20b.pdf`. -/
theorem url_to_filename_last_segment_witness :
    lastSegment (urlparse_path "https://example.com/a%20b.pdf") ≠ "" ∧
    url_to_filename "https://example.com/a%20b.pdf" ≠ "" :=
  ⟨by decide,
    (url_to_filename_last_segment "https://example.com/a%20b.pdf"
      (by decide)).2.1⟩

/-! ### Lemmas for the extractor claim -/

theorem dropLit_eq (lit : List Char) :
    ∀ r r' : List Char, dropLit lit r = some r' → r = lit ++ r' := by
  induction lit with
  | nil =>
    intro r r' h
    simp only [dropLit, Option.some.injEq] at h
    simp [h]
  | cons l ls ih =>
    intro r r' h
    cases r with
    | nil => simp [dropLit] at h
    | cons c cs =>
      simp only [dropLit] at h
      by_cases hcl : c = l
      · rw [if_pos hcl] at h
        rw [hcl, List.cons_append]
        exact congrArg (l :: ·) (ih cs r' h)
      · rw [if_neg hcl] at h
        exact absurd h (by simp)

theorem scanValue_eq :
    ∀ cs v r : List Char, scanValue cs = some (v, r) →
      cs = v ++ '"' :: r ∧ ∀ x ∈ v, x ≠ '"' ∧ x ≠ '\n' := by
  intro cs
  induction cs with
  | nil => intro v r h; simp [scanValue] at h
  | cons c rest ih =>
    intro v r h
    simp only [scanValue] at h
    by_cases hq : c = '"'
    · rw [if_pos hq] at h
      simp only [Option.some.injEq, Prod.mk.injEq] at h
      rw [← h.1, ← h.2, hq]
      exact ⟨rfl, by simp⟩
    · rw [if_neg hq] at h
      by_cases hn : c = '\n'
      · rw [if_pos hn] at h
        exact absurd h (by simp)
      · rw [if_neg hn] at h
        cases hsv : scanValue rest with
        | none => rw [hsv] at h; simp at h
        | some vr =>
          obtain ⟨v0, r0⟩ := vr
          rw [hsv] at h
          simp only [Option.some.injEq, Prod.mk.injEq] at h
          obtain ⟨hrec, hforall⟩ := ih v0 r0 hsv
          rw [← h.1, ← h.2]
          constructor
          · rw [List.cons_append, ← hrec]
          · intro x hx
            rcases List.mem_cons.mp hx with he | hm
            · rw [he]; exact ⟨hq, hn⟩
            · exact hforall x hm

theorem matchHere_eq (cs m r : List Char) (h : matchHere cs = some (m, r)) :
    (∃ w1 w2 v : List Char,
      m = w1 ++ urlKeyLit ++ w2 ++ '"' :: v ++ ['"'] ∧
      (∀ x ∈ w1, pyIsSpace x = true) ∧
      (∀ x ∈ w2, pyIsSpace x = true) ∧
      (∀ x ∈ v, x ≠ '"' ∧ x ≠ '\n')) ∧
    cs = m ++ r := by
  unfold matchHere at h
  split at h
  · simp at h
  · rename_i r2 hdl
    split at h
    · rename_i r4 hdw
      split at h
      · rename_i vr hsv
        obtain ⟨v0, r0⟩ := vr
        simp only [Option.some.injEq, Prod.mk.injEq] at h
        obtain ⟨hm, hr⟩ := h
        obtain ⟨hsv1, hsv2⟩ := scanValue_eq r4 v0 r0 hsv
        have hcs1 : cs = cs.takeWhile pyIsSpace ++ (urlKeyLit ++ r2) := by
          rw [← dropLit_eq urlKeyLit _ _ hdl, List.takeWhile_append_dropWhile]
        have hcs2 : r2 = r2.takeWhile pyIsSpace ++ ('"' :: r4) := by
          rw [← hdw, List.takeWhile_append_dropWhile]
        refine ⟨⟨cs.takeWhile pyIsSpace, r2.takeWhile pyIsSpace, v0,
          hm.symm, ?_, ?_, hsv2⟩, ?_⟩
        · intro x hx; exact List.mem_takeWhile_imp hx
        · intro x hx; exact List.mem_takeWhile_imp hx
        · rw [← hm, ← hr]
          conv_lhs => rw [hcs1]
          conv_lhs => rw [hcs2]
          conv_lhs => rw [hsv1]
          simp [List.append_assoc]
      · simp at h
    · simp at h

theorem matchHere_ne_nil {cs m r : List Char} (h : matchHere cs = some (m, r)) :
    m ≠ [] := by
  obtain ⟨⟨w1, w2, v, hm, _, _, _⟩, _⟩ := matchHere_eq cs m r h
  rw [hm]
  simp [urlKeyLit]

theorem matchHere_split {cs m r : List Char} (h : matchHere cs = some (m, r)) :
    cs = m ++ r :=
  (matchHere_eq cs m r h).2

theorem matchHere_getLast {cs m r : List Char}
    (h : matchHere cs = some (m, r)) : m.getLast? = some '"' := by
  obtain ⟨⟨w1, w2, v, hm, _, _, _⟩, _⟩ := matchHere_eq cs m r h
  rw [hm]
  rw [show w1 ++ urlKeyLit ++ w2 ++ '"' :: v ++ ['"'] =
    (w1 ++ urlKeyLit ++ w2 ++ '"' :: v) ++ ['"'] by simp [List.append_assoc]]
  exact List.getLast?_concat _

theorem matchHere_rest_lt {cs m r : List Char}
    (h : matchHere cs = some (m, r)) : r.length < cs.length := by
  have hsplit := matchHere_split h
  have hne := matchHere_ne_nil h
  rw [hsplit, List.length_append]
  have : 0 < m.length := List.length_pos.mpr hne
  omega

set_option maxHeartbeats 1000000 in
theorem scanFindP_pos_le :
    ∀ (fuel i : Nat) (b : Bool) (cs : List Char),
      ∀ pm ∈ scanFindP fuel i b cs, i ≤ pm.1 := by
  intro fuel
  induction fuel with
  | zero => intro i b cs pm hpm; simp [scanFindP] at hpm
  | succ fuel ih =>
    intro i b cs pm hpm
    cases cs with
    | nil => simp [scanFindP] at hpm
    | cons c rest =>
      simp only [scanFindP] at hpm
      by_cases hb : b = true
      · rw [if_pos hb] at hpm
        cases hmh : matchHere (c :: rest) with
        | none =>
          rw [hmh] at hpm
          have := ih (i + 1) (c = '\n') rest pm hpm
          omega
        | some mr =>
          rw [hmh] at hpm
          rcases List.mem_cons.mp hpm with he | hm
          · rw [he]
          · have := ih (i + mr.1.length) false mr.2 pm hm
            omega
      · rw [if_neg hb] at hpm
        have := ih (i + 1) (c = '\n') rest pm hpm
        omega

theorem scanFindP_chain :
    ∀ (fuel i : Nat) (b : Bool) (cs : List Char),
      List.Chain' (fun x y => x.1 < y.1) (scanFindP fuel i b cs) := by
  intro fuel
  induction fuel with
  | zero => intro i b cs; simp [scanFindP]
  | succ fuel ih =>
    intro i b cs
    cases cs with
    | nil => simp [scanFindP]
    | cons c rest =>
      simp only [scanFindP]
      by_cases hb : b = true
      · rw [if_pos hb]
        cases hmh : matchHere (c :: rest) with
        | none => exact ih (i + 1) (c = '\n') rest
        | some mr =>
          obtain ⟨m0, r0⟩ := mr
          refine List.chain'_cons'.mpr ⟨?_, ih (i + m0.length) false r0⟩
          intro y hy
          have hmem := List.mem_of_mem_head? hy
          have hle := scanFindP_pos_le fuel (i + m0.length) false r0 y hmem
          have hpos : 0 < m0.length :=
            List.length_pos.mpr (matchHere_ne_nil hmh)
          omega
      · rw [if_neg hb]
        exact ih (i + 1) (c = '\n') rest

set_option maxHeartbeats 1000000 in
theorem scanFindP_mem (full : List Char) :
    ∀ (fuel i : Nat) (b : Bool),
      (full.drop i).length < fuel →
      b = (decide (i = 0) || (full.get? (i - 1) == some '\n')) →
      ∀ pm ∈ scanFindP fuel i b (full.drop i),
        i ≤ pm.1 ∧
        (pm.1 = 0 ∨ full.get? (pm.1 - 1) = some '\n') ∧
        ∃ r, matchHere (full.drop pm.1) = some (pm.2, r) := by
  intro fuel
  induction fuel with
  | zero => intro i b hlen; omega
  | succ fuel ih =>
    intro i b hlen hb pm hpm
    cases hdrop : full.drop i with
    | nil => rw [hdrop] at hpm; simp [scanFindP] at hpm
    | cons c rest =>
      rw [hdrop] at hpm
      have hlen2 : (c :: rest).length < fuel + 1 := by rw [← hdrop]; exact hlen
      have hc : full.get? i = some c := by
        have hg := List.get?_drop full i 0
        rw [hdrop] at hg
        simpa using hg.symm
      have hrest : full.drop (i + 1) = rest := by
        have hdd := List.drop_drop 1 i full
        rw [hdrop] at hdd
        simpa using hdd.symm
      have hstep : ∀ hpm2 : pm ∈ scanFindP fuel (i + 1) (c = '\n') rest,
          i ≤ pm.1 ∧
          (pm.1 = 0 ∨ full.get? (pm.1 - 1) = some '\n') ∧
          ∃ r, matchHere (full.drop pm.1) = some (pm.2, r) := by
        intro hpm2
        have hb2 : decide (c = '\n') =
            (decide (i + 1 = 0) || (full.get? (i + 1 - 1) == some '\n')) := by
          rw [show i + 1 - 1 = i from rfl, hc]
          by_cases hcn : c = '\n' <;> simp [hcn]
        have hlen3 : (full.drop (i + 1)).length < fuel := by
          rw [hrest]
          simp only [List.length_cons] at hlen2
          omega
        have := ih (i + 1) (decide (c = '\n')) hlen3 hb2 pm
          (by rw [hrest]; exact hpm2)
        exact ⟨by omega, this.2⟩
      simp only [scanFindP] at hpm
      by_cases hbv : b = true
      · rw [if_pos hbv] at hpm
        cases hmh : matchHere (c :: rest) with
        | none =>
          rw [hmh] at hpm
          exact hstep hpm
        | some mr =>
          obtain ⟨m0, r0⟩ := mr
          rw [hmh] at hpm
          rcases List.mem_cons.mp hpm with he | hm
          · rw [he]
            refine ⟨le_refl i, ?_, ⟨r0, by rw [hdrop]; exact hmh⟩⟩
            rw [hbv] at hb
            have := hb.symm
            simp only [Bool.or_eq_true, decide_eq_true_eq, beq_iff_eq] at this
            exact this
          · have hm0pos : 0 < m0.length :=
              List.length_pos.mpr (matchHere_ne_nil hmh)
            have hsplit : c :: rest = m0 ++ r0 := matchHere_split hmh
            have hdropm : full.drop (i + m0.length) = r0 := by
              have hdd := List.drop_drop m0.length i full
              rw [hdrop, hsplit, List.drop_left] at hdd
              exact hdd.symm
            have hlast : full.get? (i + m0.length - 1) = some '"' := by
              have hg := List.get?_drop full i (m0.length - 1)
              rw [hdrop, hsplit] at hg
              have hgl : (m0 ++ r0).get? (m0.length - 1) = m0.get? (m0.length - 1) :=
                List.get?_append (by omega)
              have hlq : m0.get? (m0.length - 1) = some '"' := by
                rw [← List.getLast?_eq_get?]
                exact matchHere_getLast hmh
              rw [hgl, hlq] at hg
              rw [show i + m0.length - 1 = i + (m0.length - 1) by omega]
              exact hg.symm
            have hb2 : false =
                (decide (i + m0.length = 0) ||
                  (full.get? (i + m0.length - 1) == some '\n')) := by
              rw [hlast]
              have hne0 : ¬ (i + m0.length = 0) := by omega
              simp [hne0]
            have hlen3 : (full.drop (i + m0.length)).length < fuel := by
              rw [hdropm]
              have := matchHere_rest_lt hmh
              simp only [List.length_cons] at hlen2 this
              omega
            have := ih (i + m0.length) false hlen3 hb2 pm
              (by rw [hdropm]; exact hm)
            exact ⟨by omega, this.2⟩
      · rw [if_neg hbv] at hpm
        exact hstep hpm

theorem matchHere_nil : matchHere [] = none := by rfl

set_option maxHeartbeats 1000000 in
theorem scanFindP_eq_nil (full : List Char) :
    ∀ (fuel i : Nat) (b : Bool),
      (full.drop i).length < fuel →
      b = (decide (i = 0) || (full.get? (i - 1) == some '\n')) →
      scanFindP fuel i b (full.drop i) = [] →
      ∀ j, i ≤ j → (j = 0 ∨ full.get? (j - 1) = some '\n') →
        matchHere (full.drop j) = none := by
  intro fuel
  induction fuel with
  | zero => intro i b hlen; omega
  | succ fuel ih =>
    intro i b hlen hb hnil j hij hjl
    cases hdrop : full.drop i with
    | nil =>
      have hle : full.length ≤ i := List.drop_eq_nil_iff.mp hdrop
      have : full.drop j = [] := List.drop_eq_nil_iff.mpr (by omega)
      rw [this]
      exact matchHere_nil
    | cons c rest =>
      rw [hdrop] at hnil
      have hlen2 : (c :: rest).length < fuel + 1 := by rw [← hdrop]; exact hlen
      have hc : full.get? i = some c := by
        have hg := List.get?_drop full i 0
        rw [hdrop] at hg
        simpa using hg.symm
      have hrest : full.drop (i + 1) = rest := by
        have hdd := List.drop_drop 1 i full
        rw [hdrop] at hdd
        simpa using hdd.symm
      have hb2 : decide (c = '\n') =
          (decide (i + 1 = 0) || (full.get? (i + 1 - 1) == some '\n')) := by
        rw [show i + 1 - 1 = i from rfl, hc]
        by_cases hcn : c = '\n' <;> simp [hcn]
      have hlen3 : (full.drop (i + 1)).length < fuel := by
        rw [hrest]
        simp only [List.length_cons] at hlen2
        omega
      simp only [scanFindP] at hnil
      by_cases hbv : b = true
      · rw [if_pos hbv] at hnil
        cases hmh : matchHere (c :: rest) with
        | some mr => rw [hmh] at hnil; simp at hnil
        | none =>
          rw [hmh] at hnil
          rcases Nat.eq_or_lt_of_le hij with he | hlt
          · rw [← he, hdrop]
            exact hmh
          · exact ih (i + 1) (decide (c = '\n')) hlen3 hb2
              (by rw [hrest]; exact hnil) j (by omega) hjl
      · rw [if_neg hbv] at hnil
        rcases Nat.eq_or_lt_of_le hij with he | hlt
        · exfalso
          rw [← he] at hjl
          apply hbv
          rw [hb]
          rcases hjl with h0 | hn
          · simp [h0]
          · rw [List.get?_eq_getElem?] at hn
            simp [hn]
        · exact ih (i + 1) (decide (c = '\n')) hlen3 hb2
            (by rw [hrest]; exact hnil) j (by omega) hjl

/-- C4: the extractor returns exactly the matches of the pattern
`^\s*"url":\s*".*?"` in multi-line mode: every returned string is the text
of a match anchored at a line start (so it has the shape optional
whitespace, literal `"url":`, optional whitespace, then a double-quoted
value cut non-greedily at the first closing quote); a text with no match
at any line start yields the empty list (and conversely); and results are
returned in order of appearance (strictly increasing match offsets). -/
theorem extract_url_lines_spec (text : String) :
    (∀ pm ∈ extract_url_matches text,
      LineStartAt text pm.1 ∧
      ∃ r, matchHere (text.toList.drop pm.1) = some (pm.2.toList, r)) ∧
    (∀ s ∈ extract_url_lines text, IsUrlShape s) ∧
    (extract_url_lines text = [] ↔ ¬ HasUrlMatch text) ∧
    List.Chain' (fun x y => x.1 < y.1) (extract_url_matches text) ∧
    extract_url_lines text = (extract_url_matches text).map Prod.snd := by
  have hfuel : (text.toList.drop 0).length < text.toList.length + 1 := by simp
  have hb0 : (true : Bool) =
      (decide ((0 : Nat) = 0) || (text.toList.get? (0 - 1) == some '\n')) := by
    simp
  have hmaster := scanFindP_mem text.toList (text.toList.length + 1) 0 true
    hfuel hb0
  rw [List.drop_zero] at hmaster
  have hraw : ∀ pm0 ∈ scanFindP (text.toList.length + 1) 0 true text.toList,
      (pm0.1 = 0 ∨ text.toList.get? (pm0.1 - 1) = some '\n') ∧
      ∃ r, matchHere (text.toList.drop pm0.1) = some (pm0.2, r) :=
    fun pm0 h0 => (hmaster pm0 h0).2
  have hc1 : ∀ pm ∈ extract_url_matches text,
      LineStartAt text pm.1 ∧
      ∃ r, matchHere (text.toList.drop pm.1) = some (pm.2.toList, r) := by
    intro pm hpm
    unfold extract_url_matches at hpm
    rw [List.mem_map] at hpm
    obtain ⟨pm0, h0, hf⟩ := hpm
    obtain ⟨hls, r, hr⟩ := hraw pm0 h0
    rw [← hf]
    exact ⟨hls, ⟨r, hr⟩⟩
  refine ⟨hc1, ?_, ⟨?_, ?_⟩, ?_, rfl⟩
  · intro s hs
    unfold extract_url_lines at hs
    rw [List.mem_map] at hs
    obtain ⟨pm, hpm, hsnd⟩ := hs
    obtain ⟨hls, r, hr⟩ := hc1 pm hpm
    obtain ⟨⟨w1, w2, v, hm, hws1, hws2, hv⟩, _⟩ :=
      matchHere_eq _ _ _ hr
    exact ⟨w1, w2, v, by rw [← hsnd, hm], hws1, hws2, hv⟩
  · intro hnil hhas
    obtain ⟨j, hjl, hjs⟩ := hhas
    have hmatches : extract_url_matches text = [] := by
      unfold extract_url_lines at hnil
      exact List.map_eq_nil_iff.mp hnil
    have hrawnil : scanFindP (text.toList.length + 1) 0 true text.toList = [] := by
      unfold extract_url_matches at hmatches
      exact List.map_eq_nil_iff.mp hmatches
    have := scanFindP_eq_nil text.toList (text.toList.length + 1) 0 true
      hfuel hb0 (by rw [List.drop_zero]; exact hrawnil) j (Nat.zero_le j) hjl
    rw [this] at hjs
    simp at hjs
  · intro hno
    by_contra hne
    have : scanFindP (text.toList.length + 1) 0 true text.toList ≠ [] := by
      intro hc
      apply hne
      unfold extract_url_lines extract_url_matches
      rw [hc]
      rfl
    obtain ⟨pm0, hpm0⟩ := List.exists_mem_of_ne_nil _ this
    obtain ⟨hls, r, hr⟩ := hraw pm0 hpm0
    exact hno ⟨pm0.1, hls, by rw [hr]; rfl⟩
  · unfold extract_url_matches
    rw [List.chain'_map]
    exact scanFindP_chain (text.toList.length + 1) 0 true text.toList

/-- C4 (witness): the extractor theorem applied to a concrete text, whose
single extracted string is certified to have the required shape. -/
theorem extract_url_lines_spec_witness : IsUrlShape "  \"url\": \"x\"" :=
  (extract_url_lines_spec c4_text).2.1 "  \"url\": \"x\"" (by decide)
